import Mathlib

/-!
Verification of the EasyForm front-end pipeline.

This file gives a shallow embedding, in Lean, of the form-filling front end:
the review/edit logic of `FormFillerPage.tsx` (`getChangedLines`,
`updateChange`, `processForm`, `handleFileUpload`), the backend helpers of
`form_helpers.ts` (`getContextData`, `writeContextData`, output-path
computation, the HTTP call sequence), the Electron main-process handlers
(`SELECT_DIRECTORY` / `getAllFilesAbsolute`, API-key persistence) and the
`apiKeyService` of `ApiKeyModal.tsx`.

JavaScript strings are modelled as Lean `String`s; because the built-in
`String` operations do not reduce definitionally, every string operation used
here is defined by structural recursion over `String.data` (the underlying
character list).  JavaScript `undefined` values arising from out-of-range
array reads are modelled with `Option`.
-/

namespace EasyForm

/-- Models `s.split("\n")` on the character list: splitting on a separator
character, where an empty input yields `[[]]` and a trailing separator yields
a trailing empty group, exactly as in JavaScript. -/
def splitOnChar (sep : Char) : List Char → List (List Char)
  | [] => [[]]
  | c :: rest =>
    let r := splitOnChar sep rest
    if c = sep then [] :: r
    else match r with
         | g :: gs => (c :: g) :: gs
         | [] => [[c]]

/-- Models the JavaScript `s.split("\n")` used throughout `FormFillerPage.tsx`. -/
def splitLines (s : String) : List String := (splitOnChar '\n' s.data).map String.mk

/-- Models the JavaScript `lines.join("\n")`. -/
def joinChar (sep : Char) : List (List Char) → List Char
  | [] => []
  | [g] => g
  | g :: gs => g ++ sep :: joinChar sep gs

/-- Models the JavaScript `lines.join("\n")` on strings. -/
def joinLines (ls : List String) : String := String.mk (joinChar '\n' (ls.map String.data))

/-- Models the JavaScript `s.endsWith(pat)`. -/
def endsWithStr (s pat : String) : Bool :=
  decide (s.data.drop (s.data.length - pat.data.length) = pat.data)

/-- Models the JavaScript `s.toLowerCase()` (ASCII-adequate). -/
def lowerStr (s : String) : String := String.mk (s.data.map Char.toLower)

/-- Models the JavaScript `s.replace(/PAT$/, rep)` for a literal pattern
`pat`: if `s` ends with `pat` (case-sensitively) the final occurrence is
replaced by `rep`, otherwise `s` is returned unchanged.  This is the exact
behaviour of `uploadedFile.replace(/\.pdf$/, "_filled.pdf")` in
`processForm` (`FormFillerPage.tsx`). -/
def jsReplaceEnd (s pat rep : String) : String :=
  if endsWithStr s pat then String.mk (s.data.take (s.data.length - pat.data.length) ++ rep.data)
  else s

/-- A fill entry as exchanged with the backend (JSON schema `FillEntry` in the
repository README): `lines` is the original multiline snippet,
`number_of_fill_spots` the placeholder count, `context_keys` one key (or
null) per placeholder, `filled_lines` the substituted copy. -/
structure FillEntry where
  lines : String
  number_of_fill_spots : Nat
  context_keys : List (Option String)
  filled_lines : String
deriving DecidableEq, Repr

/-- A checkbox entry as exchanged with the backend (JSON schema
`CheckboxEntry` in the repository README). -/
structure CheckboxEntry where
  lines : String
  checkbox_positions : List (Nat × Nat)
  checkbox_values : List String
  context_key : Option String
  checked_indices : List Nat
deriving DecidableEq, Repr

/-- One element of the `changedLines` list built by `getChangedLines` in
`FormFillerPage.tsx`: the original line, the filled replacement
(`none` models the JavaScript `undefined` read past the end of
`filledLines`), and the running id. -/
structure Change where
  originalLine : String
  filledValue : Option String
  id : Nat
deriving DecidableEq, Repr

/-- The positions at which `originalLines[i] !== filledLines[i]` in the loops
of `getChangedLines` and `updateChange`: the loop runs over the indices of
`originalLines`; an out-of-range read of `filledLines` is `undefined`, which
is `!==` to every string, hence always a difference. The recursion consumes
both lists in step, `none` marking the exhausted-`filledLines` case. -/
def lineDiffs : List String → List String → List (String × Option String)
  | [], _ => []
  | a :: o, [] => (a, none) :: lineDiffs o []
  | a :: o, b :: f => if a ≠ b then (a, some b) :: lineDiffs o f else lineDiffs o f

/-- Assigns consecutive ids, starting from `n`, to a list of differing line
pairs, as the `index`/`globalChangeIndex` counters do in `FormFillerPage.tsx`. -/
def numberFrom (n : Nat) : List (String × Option String) → List Change
  | [] => []
  | (a, b) :: rest => ⟨a, b, n⟩ :: numberFrom (n + 1) rest

/-- The entry loop of `getChangedLines`, carrying the running `index`
counter across entries. -/
def getChangedLinesGo : List FillEntry → Nat → List Change
  | [], _ => []
  | e :: es, n =>
    let d := lineDiffs (splitLines e.lines) (splitLines e.filled_lines)
    numberFrom n d ++ getChangedLinesGo es (n + d.length)

/-- Models `getChangedLines` from `FormFillerPage.tsx`: walks the fill
entries in order, splits `lines` and `filled_lines` on newlines, and pushes a
`Change` with the running `index` for every position at which they differ. -/
def getChangedLines (entries : List FillEntry) : List Change :=
  getChangedLinesGo entries 0

/-- Stated from the specification, for comparison with `getChangedLines`:
the changes list enumerates exactly the line positions at which
`filled_lines` differs from `lines`, in entry order then line order, pairing
each original line with its filled replacement, with consecutive ids starting
at 0.  The per-entry positions are obtained by zipping the two line lists. -/
def specChangedLines (entries : List FillEntry) : List Change :=
  numberFrom 0 <| entries.flatMap fun e =>
    ((splitLines e.lines).zip (splitLines e.filled_lines)).filterMap fun p =>
      if p.1 ≠ p.2 then some (p.1, some p.2) else none

theorem numberFrom_append (n : Nat) (d1 d2 : List (String × Option String)) :
    numberFrom n (d1 ++ d2) = numberFrom n d1 ++ numberFrom (n + d1.length) d2 := by
  induction d1 generalizing n with
  | nil => simp [numberFrom]
  | cons p rest ih =>
    cases p
    simp only [List.cons_append, List.append_eq, numberFrom, ih, List.length_cons]
    have h : n + 1 + rest.length = n + (rest.length + 1) := by omega
    rw [h]

theorem lineDiffs_eq_zip (o f : List String) (h : o.length = f.length) :
    lineDiffs o f =
      (o.zip f).filterMap fun p => if p.1 ≠ p.2 then some (p.1, some p.2) else none := by
  induction o generalizing f with
  | nil => simp [lineDiffs]
  | cons a o ih =>
    cases f with
    | nil => simp at h
    | cons b f =>
      simp only [List.length_cons, Nat.add_right_cancel_iff] at h
      simp only [lineDiffs, List.zip_cons_cons, List.filterMap_cons]
      by_cases hab : a = b
      · simp [hab, ih f h]
      · simp [hab, ih f h]

theorem getChangedLines_go_eq (l : List FillEntry)
    (hl : ∀ e ∈ l, (splitLines e.lines).length = (splitLines e.filled_lines).length) :
    ∀ n, getChangedLinesGo l n =
      numberFrom n (l.flatMap fun e =>
        ((splitLines e.lines).zip (splitLines e.filled_lines)).filterMap fun p =>
          if p.1 ≠ p.2 then some (p.1, some p.2) else none) := by
  induction l with
  | nil => intro n; simp [getChangedLinesGo, numberFrom]
  | cons e es ih =>
    intro n
    have he := hl e (List.mem_cons_self e es)
    have hes : ∀ x ∈ es, (splitLines x.lines).length = (splitLines x.filled_lines).length :=
      fun x hx => hl x (List.mem_cons_of_mem e hx)
    simp only [getChangedLinesGo, List.flatMap_cons, numberFrom_append]
    rw [lineDiffs_eq_zip _ _ he, ih hes]

/-- Claim C6: for every list of resolved fill entries whose `lines` and
`filled_lines` split into equally many lines, the computed changes list
(`getChangedLines`) enumerates exactly those line positions at which
`filled_lines` differs from `lines`, in entry order then line order, pairing
each original line with its filled replacement, with consecutive ids starting
at 0 (the enumeration stated from the specification is `specChangedLines`). -/
theorem getChangedLines_eq_spec (entries : List FillEntry)
    (h : ∀ e ∈ entries, (splitLines e.lines).length = (splitLines e.filled_lines).length) :
    getChangedLines entries = specChangedLines entries := by
  rw [getChangedLines, specChangedLines, getChangedLines_go_eq entries h 0]

/-- Witness for claim C6 at a concrete entry list. -/
theorem getChangedLines_eq_spec_witness :
    getChangedLines
        [⟨"Name: ____\nCity: ____", 2, [some "name", some "city"],
          "Name: Ada Lovelace\nCity: ____"⟩,
         ⟨"Date: ____", 1, [none], "Date: 2024-01-01"⟩] =
      specChangedLines
        [⟨"Name: ____\nCity: ____", 2, [some "name", some "city"],
          "Name: Ada Lovelace\nCity: ____"⟩,
         ⟨"Date: ____", 1, [none], "Date: 2024-01-01"⟩] :=
  getChangedLines_eq_spec _ (by decide)

/-- A call from the front end to the backend service, at the level of the
helpers in `form_helpers.ts`.  Recording the calls of a run as data lets the
theorems speak about which pipeline stages a handler invokes. -/
inductive BackendCall where
  | fetchFormText (formPath : String)
  | fetchContext (contextDir : String)
  | detectPattern (text : String)
  | detectFillEntries (text : String) (keys : List String) (pattern : Option String)
  | processFillEntries (entries : List FillEntry) (contextDir : String) (pattern : Option String)
  | fillForm (formPath : String) (entries : List FillEntry)
      (checkboxes : List CheckboxEntry) (outputPath : String)
deriving DecidableEq, Repr

/-- The inner loop of `updateChange` restricted to one entry: walks
`originalLines`/`filledLines` in step looking for the `n`-th differing
position; on a hit it assigns `newValue` to that index of `filledLines` and
stops.  An exhausted `filledLines` list is the JavaScript out-of-range case:
every remaining position differs (`undefined !==` any string), and the
assignment extends the array with empty holes, which `join("\n")` renders as
empty strings.  Returns `none` when fewer than `n + 1` differences remain. -/
def setNthDiff : List String → List String → Nat → String → Option (List String)
  | [], _, _, _ => none
  | _ :: o, [], n, v => if n ≤ o.length then some (List.replicate n "" ++ [v]) else none
  | a :: o, b :: f, n, v =>
    if a ≠ b then
      match n with
      | 0 => some (v :: f)
      | n' + 1 => (setNthDiff o f n' v).map (b :: ·)
    else (setNthDiff o f n v).map (b :: ·)

/-- The entry loop of `updateChange` (`FormFillerPage.tsx`): searches the
entries in order for the `changeId`-th differing line, rebuilding the hit
entry's `filled_lines`; the running global counter is modelled by subtracting
each entry's difference count from the target id. -/
def updateEntriesGo : List FillEntry → Nat → String → Option (List FillEntry)
  | [], _, _ => none
  | e :: es, n, v =>
    let o := splitLines e.lines
    let f := splitLines e.filled_lines
    match setNthDiff o f n v with
    | some f' => some ({ e with filled_lines := joinLines f' } :: es)
    | none => (updateEntriesGo es (n - (lineDiffs o f).length) v).map (e :: ·)

/-- Models `updateChange` from `FormFillerPage.tsx`: given the component
state (`uploadedFile`, `outputPath`, `checkboxEntries`, `fillEntries`), it
returns the new fill-entry state together with the backend calls performed.
When the `changeId`-th differing line is found, the state is updated and
`fillForm` is re-invoked on the updated entries; otherwise nothing changes
and no call is made. -/
def updateChange (uploadedFile outputPath : String) (checkboxEntries : List CheckboxEntry)
    (entries : List FillEntry) (changeId : Nat) (newValue : String) :
    List FillEntry × List BackendCall :=
  match updateEntriesGo entries changeId newValue with
  | some es => (es, [.fillForm uploadedFile es checkboxEntries outputPath])
  | none => (entries, [])

/-- Stated from the claim: the line indices, in order, at which an entry's
original and filled line lists differ (out-of-range filled lines count as
differing, as in the code). -/
def diffIdxs : List String → List String → List Nat
  | [], _ => []
  | _ :: o, [] => 0 :: (diffIdxs o []).map (· + 1)
  | a :: o, b :: f =>
    if a ≠ b then 0 :: (diffIdxs o f).map (· + 1) else (diffIdxs o f).map (· + 1)

/-- Stated from the claim: the (entry index, line index) pairs of all
differing lines, in entry order then line order; position `changeId` of this
list is "the changeId-th line at which filled_lines differs from lines". -/
def diffPositions : List FillEntry → List (Nat × Nat)
  | [] => []
  | e :: es =>
    (diffIdxs (splitLines e.lines) (splitLines e.filled_lines)).map ((0, ·)) ++
      (diffPositions es).map fun p => (p.1 + 1, p.2)

theorem diffIdxs_length (o f : List String) : (diffIdxs o f).length = (lineDiffs o f).length := by
  induction o generalizing f with
  | nil => simp [diffIdxs, lineDiffs]
  | cons a o ih =>
    cases f with
    | nil => simp [diffIdxs, lineDiffs, ih]
    | cons b f =>
      by_cases hab : a = b <;> simp [diffIdxs, lineDiffs, hab, ih]

theorem diffIdxs_lt (o f : List String) (h : o.length = f.length) :
    ∀ j ∈ diffIdxs o f, j < f.length := by
  induction o generalizing f with
  | nil => simp [diffIdxs]
  | cons a o ih =>
    cases f with
    | nil => simp at h
    | cons b f =>
      simp only [List.length_cons, Nat.add_right_cancel_iff] at h
      intro j hj
      by_cases hab : a = b
      · simp only [diffIdxs, hab, ne_eq, not_true_eq_false, if_false, List.mem_map] at hj
        obtain ⟨j', hj', rfl⟩ := hj
        have := ih f h j' hj'
        simp only [List.length_cons]
        omega
      · simp only [diffIdxs, ne_eq, hab, not_false_eq_true, if_true, List.mem_cons,
          List.mem_map] at hj
        rcases hj with rfl | ⟨j', hj', rfl⟩
        · simp
        · have := ih f h j' hj'
          simp only [List.length_cons]
          omega

theorem diffIdxs_nil_length (o : List String) : (diffIdxs o []).length = o.length := by
  induction o with
  | nil => simp [diffIdxs]
  | cons c o ih => simp [diffIdxs, ih]

theorem setNthDiff_of_lt (o f : List String) (n : Nat) (v : String)
    (hn : n < (diffIdxs o f).length) (hlen : o.length = f.length) :
    ∃ j, (diffIdxs o f)[n]? = some j ∧ setNthDiff o f n v = some (f.set j v) := by
  induction o generalizing f n with
  | nil => simp [diffIdxs] at hn
  | cons a o ih =>
    cases f with
    | nil => simp at hlen
    | cons b f =>
      simp only [List.length_cons, Nat.add_right_cancel_iff] at hlen
      by_cases hab : a = b
      · simp only [diffIdxs, hab, ne_eq, not_true_eq_false, if_false, List.length_map] at hn
        obtain ⟨j, hj, hs⟩ := ih f n hn hlen
        refine ⟨j + 1, ?_, ?_⟩
        · simp [diffIdxs, hab, List.getElem?_map, hj]
        · simp [setNthDiff, hab, hs, List.set]
      · cases n with
        | zero =>
          refine ⟨0, ?_, ?_⟩
          · simp [diffIdxs, hab]
          · simp [setNthDiff, hab, List.set]
        | succ n' =>
          simp only [diffIdxs, ne_eq, hab, not_false_eq_true, if_true, List.length_cons,
            List.length_map, Nat.add_lt_add_iff_right] at hn
          obtain ⟨j, hj, hs⟩ := ih f n' hn hlen
          refine ⟨j + 1, ?_, ?_⟩
          · simp [diffIdxs, hab, List.getElem?_map, hj]
          · simp [setNthDiff, hab, hs, List.set]

theorem setNthDiff_of_ge (o f : List String) (n : Nat) (v : String)
    (hn : (diffIdxs o f).length ≤ n) : setNthDiff o f n v = none := by
  induction o generalizing f n with
  | nil => simp [setNthDiff]
  | cons a o ih =>
    cases f with
    | nil =>
      simp only [diffIdxs, List.length_cons, List.length_map] at hn
      have : ¬ n ≤ o.length := by
        have := diffIdxs_nil_length o
        omega
      simp [setNthDiff, this]
    | cons b f =>
      by_cases hab : a = b
      · simp only [diffIdxs, hab, ne_eq, not_true_eq_false, if_false, List.length_map] at hn
        simp [setNthDiff, hab, ih f n hn]
      · simp only [diffIdxs, ne_eq, hab, not_false_eq_true, if_true, List.length_cons,
          List.length_map] at hn
        cases n with
        | zero => omega
        | succ n' =>
          have : (diffIdxs o f).length ≤ n' := by omega
          simp [setNthDiff, hab, ih f n' this]

theorem updateEntriesGo_of_lt (entries : List FillEntry) (n : Nat) (v : String)
    (hlen : ∀ e ∈ entries, (splitLines e.lines).length = (splitLines e.filled_lines).length)
    (hn : n < (diffPositions entries).length) :
    ∃ k j e, (diffPositions entries)[n]? = some (k, j) ∧ entries[k]? = some e ∧
      updateEntriesGo entries n v =
        some (entries.set k
          { e with filled_lines := joinLines ((splitLines e.filled_lines).set j v) }) := by
  induction entries generalizing n with
  | nil => simp [diffPositions] at hn
  | cons e es ih =>
    have he := hlen e (List.mem_cons_self e es)
    have hes : ∀ x ∈ es, (splitLines x.lines).length = (splitLines x.filled_lines).length :=
      fun x hx => hlen x (List.mem_cons_of_mem e hx)
    by_cases hc : n < (diffIdxs (splitLines e.lines) (splitLines e.filled_lines)).length
    · obtain ⟨j, hj, hs⟩ := setNthDiff_of_lt _ _ n v hc he
      refine ⟨0, j, e, ?_, by simp, ?_⟩
      · rw [diffPositions, List.getElem?_append_left (by simpa using hc)]
        simp [List.getElem?_map, hj]
      · simp [updateEntriesGo, hs, List.set]
    · push_neg at hc
      have hrest :
          n - (diffIdxs (splitLines e.lines) (splitLines e.filled_lines)).length <
            (diffPositions es).length := by
        rw [diffPositions] at hn
        simp only [List.length_append, List.length_map] at hn
        omega
      have hnone := setNthDiff_of_ge _ _ n v hc
      have hlineq := diffIdxs_length (splitLines e.lines) (splitLines e.filled_lines)
      obtain ⟨k, j, e', hj, hk, hgo⟩ := ih _ hes hrest
      refine ⟨k + 1, j, e', ?_, ?_, ?_⟩
      · rw [diffPositions, List.getElem?_append_right (by simpa using hc)]
        simp [List.getElem?_map, hj]
      · simpa using hk
      · simp [updateEntriesGo, hnone, hlineq.symm, hgo, List.set]

/-- Claim C4: when a reviewer edits the filled value of change `changeId`
before re-filling, `updateChange` replaces exactly one line — the
`changeId`-th differing line, in entry order then line order — in the
containing entry's `filled_lines`, leaves all other fields and all other
entries unchanged (the new state is `entries.set k` of the single rebuilt
entry), and re-invokes `fillForm` on the updated entries as its only backend
call, in particular without re-running entry resolution
(`processFillEntries`). -/
theorem updateChange_replaces_one_line (uf op : String) (cbs : List CheckboxEntry)
    (entries : List FillEntry) (changeId : Nat) (v : String)
    (hlen : ∀ e ∈ entries, (splitLines e.lines).length = (splitLines e.filled_lines).length)
    (hid : changeId < (diffPositions entries).length) :
    ∃ k j e, (diffPositions entries)[changeId]? = some (k, j) ∧ entries[k]? = some e ∧
      updateChange uf op cbs entries changeId v =
        (entries.set k { e with filled_lines := joinLines ((splitLines e.filled_lines).set j v) },
         [.fillForm uf
            (entries.set k
              { e with filled_lines := joinLines ((splitLines e.filled_lines).set j v) })
            cbs op]) := by
  obtain ⟨k, j, e, hj, hk, hgo⟩ := updateEntriesGo_of_lt entries changeId v hlen hid
  exact ⟨k, j, e, hj, hk, by simp [updateChange, hgo]⟩

/-- Witness for claim C4 at a concrete state: editing change 1 rewrites the
second differing line (entry 1, line 0) and triggers exactly one `fillForm`
call. -/
theorem updateChange_replaces_one_line_witness :
    ∃ (k j : Nat) (e : FillEntry),
      (diffPositions
          [⟨"Name: ____", 1, [some "name"], "Name: Ada Lovelace"⟩,
           ⟨"Date: ____", 1, [none], "Date: 2024-01-01"⟩])[1]? = some (k, j) ∧
      [⟨"Name: ____", 1, [some "name"], "Name: Ada Lovelace"⟩,
       ⟨"Date: ____", 1, [none], "Date: 2024-01-01"⟩][k]? = some e ∧
      updateChange "f.pdf" "f_filled.pdf" []
          [⟨"Name: ____", 1, [some "name"], "Name: Ada Lovelace"⟩,
           ⟨"Date: ____", 1, [none], "Date: 2024-01-01"⟩] 1 "Date: 2025-12-31" =
        ([⟨"Name: ____", 1, [some "name"], "Name: Ada Lovelace"⟩,
          ⟨"Date: ____", 1, [none], "Date: 2024-01-01"⟩].set k
           { e with filled_lines :=
               joinLines ((splitLines e.filled_lines).set j "Date: 2025-12-31") },
         [.fillForm "f.pdf"
            ([⟨"Name: ____", 1, [some "name"], "Name: Ada Lovelace"⟩,
              ⟨"Date: ____", 1, [none], "Date: 2024-01-01"⟩].set k
              { e with filled_lines :=
                  joinLines ((splitLines e.filled_lines).set j "Date: 2025-12-31") })
            [] "f_filled.pdf"]) :=
  updateChange_replaces_one_line "f.pdf" "f_filled.pdf" [] _ 1 "Date: 2025-12-31"
    (by decide) (by decide)

theorem numberFrom_map_id (n : Nat) (d : List (String × Option String)) :
    (numberFrom n d).map Change.id = List.range' n d.length := by
  induction d generalizing n with
  | nil => simp [numberFrom]
  | cons p rest ih => cases p; simp [numberFrom, ih, List.range'_succ]

theorem go_map_id (l : List FillEntry) :
    ∀ n, (getChangedLinesGo l n).map Change.id =
      List.range' n (getChangedLinesGo l n).length := by
  induction l with
  | nil => intro n; simp [getChangedLinesGo]
  | cons e es ih =>
    intro n
    simp only [getChangedLinesGo, List.map_append, numberFrom_map_id, ih, List.length_append]
    have hlen : ∀ m d, (numberFrom m d).length = d.length := by
      intro m d
      induction d generalizing m with
      | nil => rfl
      | cons p rest ih2 => cases p; simp [numberFrom, ih2]
    rw [hlen, List.range'_append_1, Nat.add_comm]

theorem go_length_eq (l : List FillEntry) :
    ∀ n, (getChangedLinesGo l n).length = (diffPositions l).length := by
  induction l with
  | nil => intro n; simp [getChangedLinesGo, diffPositions]
  | cons e es ih =>
    intro n
    have hlen : ∀ m d, (numberFrom m d).length = d.length := by
      intro m d
      induction d generalizing m with
      | nil => rfl
      | cons p rest ih2 => cases p; simp [numberFrom, ih2]
    simp [getChangedLinesGo, diffPositions, hlen, ih, diffIdxs_length]

theorem updateEntriesGo_of_ge (entries : List FillEntry) (n : Nat) (v : String)
    (hn : (diffPositions entries).length ≤ n) : updateEntriesGo entries n v = none := by
  induction entries generalizing n with
  | nil => rfl
  | cons e es ih =>
    rw [diffPositions] at hn
    simp only [List.length_append, List.length_map] at hn
    have hc : (diffIdxs (splitLines e.lines) (splitLines e.filled_lines)).length ≤ n := by omega
    have hnone := setNthDiff_of_ge _ _ n v hc
    have hrest :
        (diffPositions es).length ≤
          n - (diffIdxs (splitLines e.lines) (splitLines e.filled_lines)).length := by omega
    simp [updateEntriesGo, hnone,
      (diffIdxs_length (splitLines e.lines) (splitLines e.filled_lines)).symm, ih _ hrest]

/-- Claim C8: for every fill-entry list and every `changeId` that is not the
id of any enumerated change (no line at that global index differs between
`lines` and `filled_lines`), `updateChange` leaves the fill-entry state
unchanged and performs no backend call at all. -/
theorem updateChange_unmatched_noop (uf op : String) (cbs : List CheckboxEntry)
    (entries : List FillEntry) (changeId : Nat) (v : String)
    (h : ∀ ch ∈ getChangedLines entries, ch.id ≠ changeId) :
    updateChange uf op cbs entries changeId v = (entries, []) := by
  have hge : (diffPositions entries).length ≤ changeId := by
    by_contra hlt
    push_neg at hlt
    have hlen := go_length_eq entries 0
    have hmap := go_map_id entries 0
    have : changeId ∈ (getChangedLinesGo entries 0).map Change.id := by
      rw [hmap, List.mem_range']
      refine ⟨changeId, by omega, by omega⟩
    obtain ⟨ch, hch, hid⟩ := List.mem_map.mp this
    exact h ch (by simpa [getChangedLines] using hch) hid
  rw [updateChange, updateEntriesGo_of_ge entries changeId v hge]

/-- Witness for claim C8: change id 1 does not exist for a single fully
agreeing entry plus one change, so the state and call list are untouched. -/
theorem updateChange_unmatched_noop_witness :
    updateChange "f.pdf" "f_filled.pdf" []
        [⟨"Name: ____", 1, [some "name"], "Name: Ada Lovelace"⟩] 1 "X" =
      ([⟨"Name: ____", 1, [some "name"], "Name: Ada Lovelace"⟩], []) :=
  updateChange_unmatched_noop "f.pdf" "f_filled.pdf" [] _ 1 "X" (by decide)

/-- The component state of `FormFillingAI` (`FormFillerPage.tsx`) that the
processing run touches: the uploaded form path, the chosen context directory,
the `isPdfUploaded` flag (initialised to `true` by `useState(true)`), the
`outputPath` state (initialised to the empty string) and the fill entries. -/
structure FormState where
  uploadedFile : Option String
  contextDir : Option String
  isPdfUploaded : Bool
  outputPath : String
  fillEntries : Option (List FillEntry)
deriving Repr

/-- The backend service as an oracle: one response function per endpoint used
by `processForm`.  `pattern` returns `Option String`; `none` models the
`NotFound` outcome of `detect_pattern(text) -> Pattern | NotFound` (modelled
from the spec: the backend implementation behind `/pattern/detect` is not
part of the front-end sources). -/
structure Backend where
  formText : String → String
  contextOf : String → List (String × String)
  pattern : String → Option String
  fillEntriesOf : String → List String → Option String → List FillEntry
  processEntries : List FillEntry → String → Option String → List FillEntry

/-- Models `handleFileUpload` from `FormFillerPage.tsx`: a cancelled dialog
leaves the state unchanged; otherwise the path is stored and
`isPdfUploaded` is set to `true` when the lower-cased path ends in ".pdf"
(it is never set back to `false` here). -/
def handleFileUpload (st : FormState) (filePath : Option String) : FormState :=
  match filePath with
  | none => st
  | some p =>
    { st with
        uploadedFile := some p
        isPdfUploaded := if endsWithStr (lowerStr p) ".pdf" then true else st.isPdfUploaded }

/-- The destination path computed by `processForm`: for the PDF branch
`uploadedFile.replace(/\.pdf$/, "_filled.pdf")`, otherwise
`uploadedFile.replace(/\.docx$/, "_filled.docx")` — a case-sensitive
suffix replacement that leaves the path unchanged when the suffix does not
match. -/
def computeOutputPath (uploadedFile : String) (isPdf : Bool) : String :=
  if isPdf then jsReplaceEnd uploadedFile ".pdf" "_filled.pdf"
  else jsReplaceEnd uploadedFile ".docx" "_filled.docx"

/-- Models `processForm` from `FormFillerPage.tsx` as a state transformer
that also records the backend calls it makes, in order.  It mirrors the
source line by line: the guards on `contextDir`/`uploadedFile`, the
`setOutputPath` computation, text extraction, context fetch,
`Object.keys(context)`, one pattern detection, fill-entry detection with
that pattern, fill-entry processing with the same pattern, and the final
`fillForm(uploadedFile, filledEntries, [], outputPath)`.  React state reads
inside the closure see the render-time values, so the `outputPath` passed to
`fillForm` is the state value from before this run (`st.outputPath`), not
the freshly computed one — the model reproduces this stale-closure read. -/
def processForm (b : Backend) (st : FormState) : FormState × List BackendCall :=
  match st.contextDir with
  | none => (st, [])
  | some cd =>
    match st.uploadedFile with
    | none => (st, [])
    | some uf =>
      let newOutput := computeOutputPath uf st.isPdfUploaded
      let text := b.formText uf
      let keys := (b.contextOf cd).map Prod.fst
      let pat := b.pattern text
      let entries := b.fillEntriesOf text keys pat
      let filled := b.processEntries entries cd pat
      ({ st with outputPath := newOutput, fillEntries := some filled },
       [.fetchFormText uf, .fetchContext cd, .detectPattern text,
        .detectFillEntries text keys pat,
        .processFillEntries entries cd pat,
        .fillForm uf filled [] st.outputPath])

/-- The texts on which a trace performs pattern detection. -/
def detectPatternTexts (tr : List BackendCall) : List String :=
  tr.filterMap fun c => match c with | .detectPattern t => some t | _ => none

/-- The pattern arguments of the fill-entry detection calls of a trace. -/
def buildPatternArgs (tr : List BackendCall) : List (Option String) :=
  tr.filterMap fun c => match c with | .detectFillEntries _ _ p => some p | _ => none

/-- The pattern arguments of the fill-entry processing calls of a trace. -/
def resolvePatternArgs (tr : List BackendCall) : List (Option String) :=
  tr.filterMap fun c => match c with | .processFillEntries _ _ p => some p | _ => none

/-- Claim C5: within a single `processForm` run, pattern detection is
performed exactly once (one `detectPattern` call, on the extracted form
text), and the identical detected pattern value is the one supplied both to
fill-entry building (`detectFillEntries`) and to fill-entry resolution
(`processFillEntries`). -/
theorem processForm_pattern_once (b : Backend) (uf cd : String) (isPdf : Bool)
    (op : String) (fe : Option (List FillEntry)) :
    detectPatternTexts (processForm b ⟨some uf, some cd, isPdf, op, fe⟩).2 =
        [b.formText uf] ∧
      buildPatternArgs (processForm b ⟨some uf, some cd, isPdf, op, fe⟩).2 =
        [b.pattern (b.formText uf)] ∧
      resolvePatternArgs (processForm b ⟨some uf, some cd, isPdf, op, fe⟩).2 =
        [b.pattern (b.formText uf)] :=
  ⟨rfl, rfl, rfl⟩

/-- A concrete backend whose pattern detection reports `NotFound` for every
text, used to evaluate the front end's behaviour on that outcome. -/
def noPatternBackend : Backend where
  formText := fun _ => "Name: ____"
  contextOf := fun _ => [("name", "Ada Lovelace")]
  pattern := fun _ => none
  fillEntriesOf := fun _ _ _ => []
  processEntries := fun e _ _ => e

/-- Claim C2 (code evidence): when pattern detection returns `NotFound`
(`none`), `processForm` does not stop — the very same run still invokes
fill-entry building (and the later stages) with the absent pattern, contrary
to the specified hard-precondition behaviour. -/
theorem processForm_proceeds_on_notFound :
    noPatternBackend.pattern "Name: ____" = none ∧
      BackendCall.detectFillEntries "Name: ____" ["name"] none ∈
        (processForm noPatternBackend ⟨some "form.pdf", some "ctx", true, "", none⟩).2 ∧
      BackendCall.processFillEntries [] "ctx" none ∈
        (processForm noPatternBackend ⟨some "form.pdf", some "ctx", true, "", none⟩).2 := by
  refine ⟨rfl, ?_, ?_⟩ <;> decide

/-- Claim C1 (code evidence): after uploading the form "FORM.PDF" (the
lower-cased check sets `isPdfUploaded`), the destination path computed by
`processForm` equals the original document's path — the case-sensitive
`replace(/\.pdf$/, ...)` does not match, so the fill-back targets the
uploaded file itself rather than a distinct `_filled` path. -/
theorem processForm_output_path_collision :
    (handleFileUpload ⟨none, some "ctx", true, "", none⟩ (some "FORM.PDF")).uploadedFile =
        some "FORM.PDF" ∧
      (processForm noPatternBackend
          (handleFileUpload ⟨none, some "ctx", true, "", none⟩ (some "FORM.PDF"))).1.outputPath =
        "FORM.PDF" := by
  refine ⟨rfl, ?_⟩
  decide

/-- An API key record as persisted by `ApiKeyModal.tsx`. -/
structure ApiKey where
  provider : String
  key : String
deriving DecidableEq, Repr

/-- Models `apiKeyService.saveApiKey`: read the stored list, drop every
entry with the new key's provider, push the new key, save. -/
def saveApiKey (stored : List ApiKey) (newApiKey : ApiKey) : List ApiKey :=
  (stored.filter fun k => k.provider != newApiKey.provider) ++ [newApiKey]

/-- Claim C10: after `saveApiKey k`, the stored list contains exactly one
entry whose provider equals `k.provider` — the newly saved one — and the
entries of every other provider are unchanged, so the at-most-one-key-per-
provider invariant is established for `k.provider` and preserved elsewhere. -/
theorem saveApiKey_one_per_provider (stored : List ApiKey) (k : ApiKey) :
    (saveApiKey stored k).filter (fun e => e.provider == k.provider) = [k] ∧
      ∀ p, p ≠ k.provider →
        (saveApiKey stored k).filter (fun e => e.provider == p) =
          stored.filter (fun e => e.provider == p) := by
  constructor
  · rw [saveApiKey, List.filter_append]
    have h1 : (stored.filter fun e => e.provider != k.provider).filter
        (fun e => e.provider == k.provider) = [] := by
      rw [List.filter_eq_nil_iff]
      intro a ha
      have h2 := (List.mem_filter.mp ha).2
      simp only [bne_iff_ne, ne_eq] at h2
      simp [h2]
    rw [h1]
    simp
  · intro p hp
    rw [saveApiKey, List.filter_append]
    have hkp : (k.provider == p) = false := by
      simp only [beq_eq_false_iff_ne, ne_eq]
      exact fun h => hp h.symm
    have h1 : ([k].filter fun e => e.provider == p) = [] := by
      simp [List.filter, hkp]
    rw [h1, List.append_nil]
    induction stored with
    | nil => rfl
    | cons a l ih =>
      rcases hak : (a.provider != k.provider) with _ | _ <;>
        rcases hap : (a.provider == p) with _ | _
      · simp [List.filter_cons, hak, hap, ih]
      · have h2 : a.provider = k.provider := by simpa using hak
        have h3 : a.provider = p := by simpa using hap
        exact absurd (h3 ▸ h2) hp
      · simp [List.filter_cons, hak, hap, ih]
      · simp [List.filter_cons, hak, hap, ih]

/-- Witness for claim C10 at a concrete key store. -/
theorem saveApiKey_one_per_provider_witness :
    (saveApiKey [⟨"groq", "old"⟩, ⟨"openai", "o"⟩] ⟨"groq", "new"⟩).filter
        (fun e => e.provider == "groq") = [⟨"groq", "new"⟩] ∧
      (saveApiKey [⟨"groq", "old"⟩, ⟨"openai", "o"⟩] ⟨"groq", "new"⟩).filter
          (fun e => e.provider == "openai") =
        [(⟨"groq", "old"⟩ : ApiKey), ⟨"openai", "o"⟩].filter
          (fun e => e.provider == "openai") :=
  ⟨(saveApiKey_one_per_provider [⟨"groq", "old"⟩, ⟨"openai", "o"⟩] ⟨"groq", "new"⟩).1,
   (saveApiKey_one_per_provider [⟨"groq", "old"⟩, ⟨"openai", "o"⟩] ⟨"groq", "new"⟩).2
     "openai" (by decide)⟩

/-- A directory tree entry, modelling what `fs.readdirSync`/`fs.statSync`
expose to `getAllFilesAbsolute` in the Electron main process. -/
inductive FsEntry where
  | file (name : String)
  | dir (name : String) (children : List FsEntry)

mutual

/-- The body of `getAllFilesAbsolute` for one directory entry: a plain file
contributes its resolved absolute path (`path.resolve(dir, file)`, modelled
as `dir ++ "/" ++ name` for an absolute `dir`); a directory recurses. -/
def filesOfEntry : String → FsEntry → List String
  | base, .file n => [base ++ "/" ++ n]
  | base, .dir n children => filesOfList (base ++ "/" ++ n) children

/-- Models `getAllFilesAbsolute` (`hello-world listener`): walks the listed
entries in order, concatenating recursive results. -/
def filesOfList : String → List FsEntry → List String
  | _, [] => []
  | base, e :: es => filesOfEntry base e ++ filesOfList base es

end

/-- Models `getAllFilesAbsolute(dir)` on the directory's children. -/
def getAllFilesAbsolute (dir : String) (children : List FsEntry) : List String :=
  filesOfList dir children

/-- The `DirWFilePaths` result type of the `SELECT_DIRECTORY` handler. -/
structure DirWFilePaths where
  path : String
  filePaths : List String
deriving DecidableEq, Repr

/-- Models the `SELECT_DIRECTORY` IPC handler: a cancelled dialog yields
`null`; otherwise all files beneath the chosen directory are collected and
every path ending in "context_data.json" is filtered out. -/
def selectDirectory (chosen : Option (String × List FsEntry)) : Option DirWFilePaths :=
  match chosen with
  | none => none
  | some (p, children) =>
    some ⟨p, (getAllFilesAbsolute p children).filter
      fun fp => !(endsWithStr fp "context_data.json")⟩

/-- Stated from the claim, independently of the traversal: `p` is the
absolute path of a file somewhere beneath `base` in the given entry. -/
inductive IsFileUnder : String → FsEntry → String → Prop where
  | file (base n : String) : IsFileUnder base (.file n) (base ++ "/" ++ n)
  | dir {base n p : String} {children : List FsEntry} {e : FsEntry} :
      e ∈ children → IsFileUnder (base ++ "/" ++ n) e p →
      IsFileUnder base (.dir n children) p

mutual

theorem mem_filesOfEntry_iff (base : String) (e : FsEntry) (p : String) :
    p ∈ filesOfEntry base e ↔ IsFileUnder base e p := by
  match e with
  | .file n =>
    constructor
    · intro h
      rw [filesOfEntry, List.mem_singleton] at h
      exact h ▸ .file base n
    · intro h
      cases h
      simp [filesOfEntry]
  | .dir n children =>
    rw [filesOfEntry, mem_filesOfList_iff]
    constructor
    · rintro ⟨c, hc, hu⟩
      exact .dir hc hu
    · rintro (_ | ⟨hc, hu⟩)
      exact ⟨_, hc, hu⟩

theorem mem_filesOfList_iff (base : String) (es : List FsEntry) (p : String) :
    p ∈ filesOfList base es ↔ ∃ e ∈ es, IsFileUnder base e p := by
  match es with
  | [] => simp [filesOfList]
  | e :: es =>
    rw [filesOfList, List.mem_append, mem_filesOfEntry_iff base e p,
      mem_filesOfList_iff base es p]
    constructor
    · rintro (h | ⟨e', he', hu⟩)
      · exact ⟨e, List.mem_cons_self e es, h⟩
      · exact ⟨e', List.mem_cons_of_mem e he', hu⟩
    · rintro ⟨e', he', hu⟩
      rcases List.mem_cons.mp he' with rfl | he'
      · exact Or.inl hu
      · exact Or.inr ⟨e', he', hu⟩

end

/-- Claim C9: for every chosen context folder, `selectDirectory` returns the
folder path together with exactly the absolute paths of the files found
recursively beneath it, except those ending in "context_data.json" — the
derived context-record file is never listed among the supporting documents. -/
theorem selectDirectory_spec (root : String) (children : List FsEntry) :
    ∃ fps, selectDirectory (some (root, children)) = some ⟨root, fps⟩ ∧
      ∀ p, p ∈ fps ↔
        ((∃ e ∈ children, IsFileUnder root e p) ∧
          endsWithStr p "context_data.json" = false) := by
  refine ⟨_, rfl, ?_⟩
  intro p
  simp only [List.mem_filter, getAllFilesAbsolute, mem_filesOfList_iff, Bool.not_eq_true']

/-- Modelled from the spec: the context-extraction pipeline behind the
`/context/extract` endpoint is backend code not present in the sources (only
its caller `extractContext` in `form_helpers.ts` is).  Per the spec, the
Context Store is a "durable, mergeable key→value dictionary per context
source, with idempotent extraction (computes only missing facts)": the run
walks the keys discoverable in the source's documents; a key already present
in the persisted record is skipped, a missing key triggers one
completion-service call whose answer is merged in.  The result is the
updated record together with the list of completion-service calls made. -/
def extractContextRun (complete : String → String) (docKeys : List String)
    (record : List (String × String)) : List (String × String) × List String :=
  match docKeys with
  | [] => (record, [])
  | k :: ks =>
    if (record.lookup k).isSome then extractContextRun complete ks record
    else
      let r := extractContextRun complete ks ((k, complete k) :: record)
      (r.1, k :: r.2)

theorem extractContextRun_lookup_mono (complete : String → String) (docKeys : List String)
    (record : List (String × String)) (k : String) (h : (record.lookup k).isSome) :
    (((extractContextRun complete docKeys record).1).lookup k).isSome := by
  induction docKeys generalizing record with
  | nil => exact h
  | cons k' ks ih =>
    rw [extractContextRun]
    by_cases hk : ((record.lookup k').isSome : Prop)
    · simpa [hk] using ih record h
    · have hcons : (((k', complete k') :: record).lookup k).isSome := by
        rw [List.lookup]
        rcases hbeq : (k == k') with _ | _
        · simpa [hbeq] using h
        · simp [hbeq]
      simpa [hk] using ih _ hcons

theorem extractContextRun_covers (complete : String → String) (docKeys : List String)
    (record : List (String × String)) :
    ∀ k ∈ docKeys, (((extractContextRun complete docKeys record).1).lookup k).isSome := by
  induction docKeys generalizing record with
  | nil => simp
  | cons k' ks ih =>
    intro k hk
    rw [extractContextRun]
    by_cases hhead : ((record.lookup k').isSome : Prop)
    · rcases List.mem_cons.mp hk with rfl | hk2
      · simpa [hhead] using extractContextRun_lookup_mono complete ks record k hhead
      · simpa [hhead] using ih record k hk2
    · rcases List.mem_cons.mp hk with rfl | hk2
      · have hcons : (((k, complete k) :: record).lookup k).isSome := by simp [List.lookup]
        simpa [hhead] using extractContextRun_lookup_mono complete ks _ k hcons
      · simpa [hhead] using ih ((k', complete k') :: record) k hk2

theorem extractContextRun_noop (complete : String → String) (docKeys : List String)
    (record : List (String × String))
    (h : ∀ k ∈ docKeys, ((record.lookup k).isSome : Prop)) :
    extractContextRun complete docKeys record = (record, []) := by
  induction docKeys with
  | nil => rfl
  | cons k ks ih =>
    rw [extractContextRun]
    have hk := h k (List.mem_cons_self k ks)
    simp only [hk, if_true]
    exact ih fun k' hk' => h k' (List.mem_cons_of_mem k hk')

/-- Claim C7 (modelled from the spec, see `extractContextRun`): two
consecutive extraction runs over an unchanged context source (same
discoverable keys, same completion oracle) yield the identical context
record, and the second run performs no completion-service call at all. -/
theorem extractContext_idempotent (complete : String → String) (docKeys : List String)
    (record : List (String × String)) :
    extractContextRun complete docKeys (extractContextRun complete docKeys record).1 =
      ((extractContextRun complete docKeys record).1, []) :=
  extractContextRun_noop complete docKeys _
    (fun k hk => extractContextRun_covers complete docKeys record k hk)

/-!
Context-record persistence (`getContextData` / `writeContextData` in
`form_helpers.ts` and the `READ_FILE` / `WRITE_FILE` IPC handlers).

The renderer serialises the flat record with `JSON.stringify(data, null, 2)`,
base64-encodes it with `btoa`, and sends it to the main process, which
decodes the base64 into bytes and writes them; reading goes through
`fs.readFile`, `buffer.toString("base64")`, `atob` and `JSON.parse`.  The
platform pieces (`JSON`, `btoa`/`atob`, Node's base64 `Buffer` codec) are
modelled below from their ECMAScript/WHATWG semantics on the fragment this
code exercises: flat objects whose keys and values are strings. -/

/-- The lower-case hex digit emitted by `JSON.stringify` in `\u00XX`
escapes. -/
def hexDigitChar (n : Nat) : Char :=
  if n < 10 then Char.ofNat (48 + n) else Char.ofNat (87 + n)

/-- The numeric value of a hex digit as accepted by `JSON.parse`
(`0-9`, `a-f`, `A-F`). -/
def hexVal (c : Char) : Option Nat :=
  if 48 ≤ c.toNat ∧ c.toNat ≤ 57 then some (c.toNat - 48)
  else if 97 ≤ c.toNat ∧ c.toNat ≤ 102 then some (c.toNat - 87)
  else if 65 ≤ c.toNat ∧ c.toNat ≤ 70 then some (c.toNat - 55)
  else none

/-- The character escape performed by `JSON.stringify` inside string
literals: quote and backslash are backslash-escaped, the five named control
characters use their short escapes, remaining control characters become
`\u00XX`, and everything else is emitted literally. -/
def escChar (c : Char) : List Char :=
  if c = '"' then ['\\', '"']
  else if c = '\\' then ['\\', '\\']
  else if c = '\x08' then ['\\', 'b']
  else if c = '\t' then ['\\', 't']
  else if c = '\n' then ['\\', 'n']
  else if c = '\x0c' then ['\\', 'f']
  else if c = '\r' then ['\\', 'r']
  else if c.toNat < 32 then
    ['\\', 'u', '0', '0', hexDigitChar (c.toNat / 16), hexDigitChar (c.toNat % 16)]
  else [c]

/-- The body of a serialised JSON string literal. -/
def escChars (s : List Char) : List Char := s.flatMap escChar

/-- A serialised JSON string literal, quotes included. -/
def quoteChars (s : String) : List Char := '"' :: (escChars s.data ++ ['"'])

/-- One member line of `JSON.stringify(obj, null, 2)`: two spaces of
indentation, the quoted key, a colon and space, the quoted value. -/
def memberChars (k v : String) : List Char :=
  ' ' :: ' ' :: (quoteChars k ++ ':' :: ' ' :: quoteChars v)

/-- The serialised members after the first one: each preceded by a comma and
newline, the whole list closed by a newline and the closing brace. -/
def membersTail : List (String × String) → List Char
  | [] => ['\n', '\x7d']
  | (k, v) :: r => ',' :: '\n' :: (memberChars k v ++ membersTail r)

/-- Models `JSON.stringify(data, null, 2)` for a flat string-to-string
object (the shape `writeContextData` serialises): `"{}"` for the empty
record, otherwise one indented `"key": "value"` member per line. -/
def stringifyFlat : List (String × String) → String
  | [] => String.mk ['\x7b', '\x7d']
  | (k, v) :: r => String.mk ('\x7b' :: '\n' :: (memberChars k v ++ membersTail r))

/-- JSON whitespace skipping as done by `JSON.parse` between tokens. -/
def skipWs : List Char → List Char
  | [] => []
  | c :: rest => if c = ' ' ∨ c = '\n' ∨ c = '\t' ∨ c = '\r' then skipWs rest else c :: rest

/-- The single-character escapes accepted by `JSON.parse` after a
backslash (besides `\uXXXX`). -/
def escCharOf (e : Char) : Option Char :=
  if e = '"' then some '"'
  else if e = '\\' then some '\\'
  else if e = '/' then some '/'
  else if e = 'b' then some '\x08'
  else if e = 'f' then some '\x0c'
  else if e = 'n' then some '\n'
  else if e = 'r' then some '\r'
  else if e = 't' then some '\t'
  else none

/-- `JSON.parse` string-literal body parsing, positioned just after the
opening quote: returns the decoded characters and the input remaining after
the closing quote.  Raw control characters are rejected, escapes are decoded
(`\u` escapes via `Char.ofNat`; this development only meets the sub-surrogate
code points `JSON.stringify` emits for control characters). -/
def parseStrBody : List Char → Option (List Char × List Char)
  | [] => none
  | c :: rest =>
    if c = '"' then some ([], rest)
    else if c = '\\' then
      match rest with
      | [] => none
      | e :: rest2 =>
        if e = 'u' then
          match rest2 with
          | h1 :: h2 :: h3 :: h4 :: rest3 =>
            match hexVal h1, hexVal h2, hexVal h3, hexVal h4, parseStrBody rest3 with
            | some a, some b, some c2, some d, some (s, r) =>
              some (Char.ofNat (((a * 16 + b) * 16 + c2) * 16 + d) :: s, r)
            | _, _, _, _, _ => none
          | _ => none
        else
          match escCharOf e, parseStrBody rest2 with
          | some ec, some (s, r) => some (ec :: s, r)
          | _, _ => none
    else if c.toNat < 32 then none
    else
      match parseStrBody rest with
      | some (s, r) => some (c :: s, r)
      | none => none

/-- One `"key": "value"` member as read by `JSON.parse`: optional
whitespace, a string, optional whitespace, a colon, optional whitespace, a
string. -/
def parseMember (cs : List Char) : Option ((String × String) × List Char) :=
  match skipWs cs with
  | '"' :: r0 =>
    match parseStrBody r0 with
    | some (k, r1) =>
      match skipWs r1 with
      | ':' :: r2 =>
        match skipWs r2 with
        | '"' :: r3 =>
          match parseStrBody r3 with
          | some (v, r4) => some ((String.mk k, String.mk v), r4)
          | none => none
        | _ => none
      | _ => none
    | none => none
  | _ => none

/-- The member loop of `JSON.parse` for a flat object, after the opening
brace: members separated by commas, stopping before the closing brace.  The
loop is written with explicit fuel; the callers pass one more than the input
length, and since every member consumes at least one character the fuel can
never run out, so this computes exactly the unbounded loop on every input. -/
def parseMembersF : Nat → List Char → Option (List (String × String) × List Char)
  | 0, _ => none
  | fuel + 1, cs =>
    match parseMember cs with
    | none => none
    | some (kv, rest) =>
      match skipWs rest with
      | ',' :: r2 =>
        match parseMembersF fuel r2 with
        | some (kvs, rest2) => some (kv :: kvs, rest2)
        | none => none
      | _ => some ([kv], rest)

/-- Models `JSON.parse` restricted to the values this code stores: a flat
object all of whose members are strings.  Any other input — including
trailing garbage, a missing brace, or a non-object — yields `none`,
modelling the `SyntaxError` that `JSON.parse` throws. -/
def jsonParseFlat (str : String) : Option (List (String × String)) :=
  match skipWs str.data with
  | '\x7b' :: rest =>
    match skipWs rest with
    | '\x7d' :: r2 => if skipWs r2 = [] then some [] else none
    | _ =>
      match parseMembersF (str.data.length + 1) rest with
      | some (r, rest2) =>
        match skipWs rest2 with
        | '\x7d' :: r3 => if skipWs r3 = [] then some r else none
        | _ => none
      | none => none
  | _ => none

theorem hexVal_hexDigitChar : ∀ m, m < 16 → hexVal (hexDigitChar m) = some m := by decide

theorem parseStrBody_escChars (s : List Char) (tail : List Char) :
    parseStrBody (escChars s ++ '"' :: tail) = some (s, tail) := by
  induction s with
  | nil =>
    rw [escChars, List.flatMap_nil, List.nil_append, parseStrBody.eq_def]
    simp
  | cons c s ih =>
    rw [escChars, List.flatMap_cons]
    rw [escChars] at ih
    by_cases h1 : c = '"'
    · subst h1
      rw [show escChar '"' = ['\\', '"'] from by decide]
      simp only [List.cons_append, List.nil_append]
      rw [parseStrBody.eq_def]
      simp [escCharOf, ih]
    · by_cases h2 : c = '\\'
      · subst h2
        rw [show escChar '\\' = ['\\', '\\'] from by decide]
        simp only [List.cons_append, List.nil_append]
        rw [parseStrBody.eq_def]
        simp [escCharOf, ih]
      · by_cases h3 : c = '\x08'
        · subst h3
          rw [show escChar '\x08' = ['\\', 'b'] from by decide]
          simp only [List.cons_append, List.nil_append]
          rw [parseStrBody.eq_def]
          simp [escCharOf, ih]
        · by_cases h4 : c = '\t'
          · subst h4
            rw [show escChar '\t' = ['\\', 't'] from by decide]
            simp only [List.cons_append, List.nil_append]
            rw [parseStrBody.eq_def]
            simp [escCharOf, ih]
          · by_cases h5 : c = '\n'
            · subst h5
              rw [show escChar '\n' = ['\\', 'n'] from by decide]
              simp only [List.cons_append, List.nil_append]
              rw [parseStrBody.eq_def]
              simp [escCharOf, ih]
            · by_cases h6 : c = '\x0c'
              · subst h6
                rw [show escChar '\x0c' = ['\\', 'f'] from by decide]
                simp only [List.cons_append, List.nil_append]
                rw [parseStrBody.eq_def]
                simp [escCharOf, ih]
              · by_cases h7 : c = '\r'
                · subst h7
                  rw [show escChar '\r' = ['\\', 'r'] from by decide]
                  simp only [List.cons_append, List.nil_append]
                  rw [parseStrBody.eq_def]
                  simp [escCharOf, ih]
                · by_cases h8 : c.toNat < 32
                  · rw [escChar, if_neg h1, if_neg h2, if_neg h3, if_neg h4, if_neg h5,
                      if_neg h6, if_neg h7, if_pos h8]
                    simp only [List.cons_append, List.nil_append]
                    rw [parseStrBody.eq_def]
                    have hd1 := hexVal_hexDigitChar (c.toNat / 16) (by omega)
                    have hd2 := hexVal_hexDigitChar (c.toNat % 16) (by omega)
                    have hv : c.toNat / 16 * 16 + c.toNat % 16 = c.toNat := by omega
                    simp [show hexVal '0' = some 0 from by decide, hd1, hd2, ih, hv,
                      Char.ofNat_toNat]
                  · rw [escChar, if_neg h1, if_neg h2, if_neg h3, if_neg h4, if_neg h5,
                      if_neg h6, if_neg h7, if_neg h8]
                    simp only [List.cons_append, List.nil_append]
                    rw [parseStrBody.eq_def]
                    simp only [if_neg h1, if_neg h2, if_neg h8, ih]

theorem parseMember_member (k v : String) (T : List Char) :
    parseMember ('\n' :: (memberChars k v ++ T)) = some ((k, v), T) := by
  rw [parseMember.eq_def]
  simp only [memberChars, quoteChars, List.cons_append, List.append_assoc, List.nil_append]
  simp [skipWs, parseStrBody_escChars]

theorem parseMembersF_members (r : List (String × String)) :
    ∀ (fuel : Nat) (k v : String), r.length < fuel →
      parseMembersF fuel ('\n' :: (memberChars k v ++ membersTail r)) =
        some ((k, v) :: r, ['\n', '\x7d']) := by
  induction r with
  | nil =>
    intro fuel k v hf
    cases fuel with
    | zero => omega
    | succ fuel =>
      rw [membersTail, parseMembersF, parseMember_member]
      simp [skipWs]
  | cons p r ih =>
    intro fuel k v hf
    obtain ⟨k2, v2⟩ := p
    cases fuel with
    | zero => omega
    | succ fuel =>
      rw [membersTail, parseMembersF, parseMember_member]
      have hr : r.length < fuel := by
        simp only [List.length_cons] at hf
        omega
      have hsk : skipWs (',' :: '\n' :: (memberChars k2 v2 ++ membersTail r)) =
          ',' :: '\n' :: (memberChars k2 v2 ++ membersTail r) := by simp [skipWs]
      simp [hsk, ih fuel k2 v2 hr]

theorem length_le_membersTail (r : List (String × String)) :
    r.length ≤ (membersTail r).length := by
  induction r with
  | nil => simp [membersTail]
  | cons p r ih =>
    obtain ⟨k, v⟩ := p
    simp only [membersTail, List.length_cons, List.length_append]
    omega

theorem skipWs_memberHead (k v : String) (X : List Char) :
    skipWs ('\n' :: (memberChars k v ++ X)) =
      '"' :: (escChars k.data ++ '"' :: ':' :: ' ' :: (quoteChars v ++ X)) := by
  simp only [memberChars, quoteChars, List.cons_append, List.append_assoc, List.nil_append]
  simp [skipWs]

theorem jsonParseFlat_stringifyFlat (r : List (String × String)) :
    jsonParseFlat (stringifyFlat r) = some r := by
  match r with
  | [] => rfl
  | (k, v) :: r' =>
    have hdata : (stringifyFlat ((k, v) :: r')).data =
        '\x7b' :: '\n' :: (memberChars k v ++ membersTail r') := rfl
    have hfuel : r'.length <
        ('\x7b' :: '\n' :: (memberChars k v ++ membersTail r')).length + 1 := by
      have := length_le_membersTail r'
      simp only [List.length_cons, List.length_append]
      omega
    have hmem := parseMembersF_members r'
      (('\x7b' :: '\n' :: (memberChars k v ++ membersTail r')).length + 1) k v hfuel
    simp only [List.length_cons, List.length_append] at hmem
    rw [jsonParseFlat.eq_def, hdata]
    rw [show skipWs ('\x7b' :: '\n' :: (memberChars k v ++ membersTail r')) =
        '\x7b' :: '\n' :: (memberChars k v ++ membersTail r') from by simp [skipWs]]
    simp [skipWs_memberHead, hmem, skipWs]

/-- The standard base64 alphabet shared by `btoa`/`atob` and Node's
`Buffer` base64 codec. -/
def b64Chars : List Char :=
  ['A', 'B', 'C', 'D', 'E', 'F', 'G', 'H', 'I', 'J', 'K', 'L', 'M',
   'N', 'O', 'P', 'Q', 'R', 'S', 'T', 'U', 'V', 'W', 'X', 'Y', 'Z',
   'a', 'b', 'c', 'd', 'e', 'f', 'g', 'h', 'i', 'j', 'k', 'l', 'm',
   'n', 'o', 'p', 'q', 'r', 's', 't', 'u', 'v', 'w', 'x', 'y', 'z',
   '0', '1', '2', '3', '4', '5', '6', '7', '8', '9', '+', '/']

/-- The alphabet character of a 6-bit group. -/
def b64CharOf (n : Nat) : Char := b64Chars.getD n 'A'

/-- The index of a character in a list, leftmost first. -/
def findIdxIn (c : Char) : List Char → Option Nat
  | [] => none
  | d :: ds => if d = c then some 0 else (findIdxIn c ds).map (· + 1)

/-- Canonical base64 encoding of a byte sequence (as performed by both
`btoa` on a Latin-1 string and `buffer.toString("base64")`): three bytes
become four alphabet characters, a final one- or two-byte group is padded
with `=`. -/
def encB64 : List Nat → List Char
  | [] => []
  | [b1] => [b64CharOf (b1 / 4), b64CharOf (b1 % 4 * 16), '=', '=']
  | [b1, b2] =>
    [b64CharOf (b1 / 4), b64CharOf (b1 % 4 * 16 + b2 / 16), b64CharOf (b2 % 16 * 4), '=']
  | b1 :: b2 :: b3 :: rest =>
    b64CharOf (b1 / 4) :: b64CharOf (b1 % 4 * 16 + b2 / 16) ::
      b64CharOf (b2 % 16 * 4 + b3 / 64) :: b64CharOf (b3 % 64) :: encB64 rest

/-- Base64 decoding of a canonically padded string back to bytes, as
performed by `atob` and `Buffer.from(data, "base64")`; inputs outside the
canonical grammar yield `none` (the platform decoders are lenient about some
malformed inputs, but every input arising here is canonical). -/
def decB64 : List Char → Option (List Nat)
  | [] => some []
  | c1 :: c2 :: c3 :: c4 :: rest =>
    if c3 = '=' then
      match rest with
      | [] =>
        if c4 = '=' then
          match findIdxIn c1 b64Chars, findIdxIn c2 b64Chars with
          | some i1, some i2 => some [i1 * 4 + i2 / 16]
          | _, _ => none
        else none
      | _ => none
    else if c4 = '=' then
      match rest with
      | [] =>
        match findIdxIn c1 b64Chars, findIdxIn c2 b64Chars, findIdxIn c3 b64Chars with
        | some i1, some i2, some i3 => some [i1 * 4 + i2 / 16, i2 % 16 * 16 + i3 / 4]
        | _, _, _ => none
      | _ => none
    else
      match findIdxIn c1 b64Chars, findIdxIn c2 b64Chars, findIdxIn c3 b64Chars,
          findIdxIn c4 b64Chars, decB64 rest with
      | some i1, some i2, some i3, some i4, some bs =>
        some ((i1 * 4 + i2 / 16) :: (i2 % 16 * 16 + i3 / 4) :: (i3 % 4 * 64 + i4) :: bs)
      | _, _, _, _, _ => none
  | _ => none

theorem findIdxIn_b64CharOf : ∀ n, n < 64 → findIdxIn (b64CharOf n) b64Chars = some n := by
  decide

theorem b64CharOf_ne_pad : ∀ n, n < 64 → b64CharOf n ≠ '=' := by decide

theorem decB64_encB64 (bs : List Nat) (h : ∀ b ∈ bs, b < 256) :
    decB64 (encB64 bs) = some bs := by
  match bs with
  | [] => rfl
  | [b1] =>
    have hb1 : b1 < 256 := h b1 (by simp)
    rw [encB64, decB64]
    simp [findIdxIn_b64CharOf (b1 / 4) (by omega), findIdxIn_b64CharOf (b1 % 4 * 16) (by omega)]
    omega
  | [b1, b2] =>
    have hb1 : b1 < 256 := h b1 (by simp)
    have hb2 : b2 < 256 := h b2 (by simp)
    have hne3 : b64CharOf (b2 % 16 * 4) ≠ '=' := b64CharOf_ne_pad _ (by omega)
    rw [encB64, decB64]
    simp [hne3, findIdxIn_b64CharOf (b1 / 4) (by omega),
      findIdxIn_b64CharOf (b1 % 4 * 16 + b2 / 16) (by omega),
      findIdxIn_b64CharOf (b2 % 16 * 4) (by omega)]
    omega
  | b1 :: b2 :: b3 :: rest =>
    have hb1 : b1 < 256 := h b1 (by simp)
    have hb2 : b2 < 256 := h b2 (by simp)
    have hb3 : b3 < 256 := h b3 (by simp)
    have hne3 : b64CharOf (b2 % 16 * 4 + b3 / 64) ≠ '=' := b64CharOf_ne_pad _ (by omega)
    have hne4 : b64CharOf (b3 % 64) ≠ '=' := b64CharOf_ne_pad _ (by omega)
    rw [encB64]
    rcases rest with _ | ⟨b4, rest2⟩
    · rw [show encB64 [] = [] from rfl, decB64]
      simp [hne3, hne4, findIdxIn_b64CharOf (b1 / 4) (by omega),
        findIdxIn_b64CharOf (b1 % 4 * 16 + b2 / 16) (by omega),
        findIdxIn_b64CharOf (b2 % 16 * 4 + b3 / 64) (by omega),
        findIdxIn_b64CharOf (b3 % 64) (by omega), decB64]
      omega
    · have hdec := decB64_encB64 (b4 :: rest2)
        (fun b hb => h b (by simp only [List.mem_cons] at hb ⊢; tauto))
      have hne : encB64 (b4 :: rest2) ≠ [] := by
        rcases rest2 with _ | ⟨b5, rest3⟩
        · rw [encB64]; simp
        · rcases rest3 with _ | ⟨b6, rest4⟩
          · rw [encB64]; simp
          · rw [encB64]; simp
      rcases henc : encB64 (b4 :: rest2) with _ | ⟨d1, ds⟩
      · exact absurd henc hne
      · rw [decB64.eq_def]
        simp only [henc] at hdec
        simp [hne3, hne4, findIdxIn_b64CharOf (b1 / 4) (by omega),
          findIdxIn_b64CharOf (b1 % 4 * 16 + b2 / 16) (by omega),
          findIdxIn_b64CharOf (b2 % 16 * 4 + b3 / 64) (by omega),
          findIdxIn_b64CharOf (b3 % 64) (by omega), hdec]
        omega

/-- Models the WHATWG `btoa`: base64-encodes a string whose code points all
fit in one byte; a string with any code point above U+00FF makes `btoa`
throw `InvalidCharacterError`, modelled as `none`. -/
def btoa (s : String) : Option String :=
  if s.data.all (fun c => c.toNat ≤ 255) then
    some (String.mk (encB64 (s.data.map Char.toNat)))
  else none

/-- Models the WHATWG `atob`: base64-decodes to a string of one character
per byte; invalid input makes `atob` throw, modelled as `none`. -/
def atob (t : String) : Option String :=
  (decB64 t.data).map fun bs => String.mk (bs.map Char.ofNat)

/-- Models the `WRITE_FILE` IPC handler: the renderer sends base64 text,
the main process stores `Buffer.from(data, "base64")` at the path.  Node's
decoder is lenient on malformed input; on the canonical base64 produced by
`btoa` it coincides with `decB64`, and only such input reaches this
handler. -/
def writeFileHandler (store : List (String × List Nat)) (path : String) (data : String) :
    List (String × List Nat) :=
  (path, (decB64 data.data).getD []) :: store

/-- Models the `READ_FILE` IPC handler: reads the file's bytes and returns
them base64-encoded (`fileBuffer.toString("base64")`); a missing file makes
`fs.readFile` reject, modelled as `none`. -/
def readFileHandler (store : List (String × List Nat)) (path : String) : Option String :=
  (store.lookup path).map fun bytes => String.mk (encB64 bytes)

/-- Models `writeContextData` from `form_helpers.ts`: serialise the record
with `JSON.stringify(contextData, null, 2)`, encode with `btoa`, and write
to the fixed path `contextDir ++ "/context_data.json"`.  `none` models the
exception thrown by `btoa` on non-Latin-1 content. -/
def writeContextData (store : List (String × List Nat)) (contextDir : String)
    (contextData : List (String × String)) : Option (List (String × List Nat)) :=
  match btoa (stringifyFlat contextData) with
  | some encoded => some (writeFileHandler store (contextDir ++ "/context_data.json") encoded)
  | none => none

/-- Models `getContextData` from `form_helpers.ts`: read the file at the
fixed path `contextDir ++ "/context_data.json"`, return `null` when the
content is empty (the `fileData && fileData.content` truthiness check),
otherwise `JSON.parse(atob(content))`; any thrown error is `none`. -/
def getContextData (store : List (String × List Nat)) (contextDir : String) :
    Option (List (String × String)) :=
  match readFileHandler store (contextDir ++ "/context_data.json") with
  | some content =>
    if content.data.isEmpty then none
    else
      match atob content with
      | some decoded => jsonParseFlat decoded
      | none => none
  | none => none

theorem hexDigitChar_le : ∀ m, m < 16 → (hexDigitChar m).toNat ≤ 255 := by decide

theorem escChar_le (c : Char) (hc : c.toNat ≤ 255) : ∀ d ∈ escChar c, d.toNat ≤ 255 := by
  intro d hd
  rw [escChar] at hd
  split_ifs at hd with h1 h2 h3 h4 h5 h6 h7 h8 <;>
    simp only [List.mem_cons, List.not_mem_nil, or_false] at hd
  · rcases hd with rfl | rfl <;> decide
  · rcases hd with rfl | rfl <;> decide
  · rcases hd with rfl | rfl <;> decide
  · rcases hd with rfl | rfl <;> decide
  · rcases hd with rfl | rfl <;> decide
  · rcases hd with rfl | rfl <;> decide
  · rcases hd with rfl | rfl <;> decide
  · rcases hd with rfl | rfl | rfl | rfl | rfl | rfl
    · decide
    · decide
    · decide
    · decide
    · exact hexDigitChar_le _ (by omega)
    · exact hexDigitChar_le _ (by omega)
  · subst hd
    exact hc

theorem quoteChars_le (s : String) (hs : ∀ c ∈ s.data, c.toNat ≤ 255) :
    ∀ d ∈ quoteChars s, d.toNat ≤ 255 := by
  intro d hd
  rw [quoteChars] at hd
  rcases List.mem_cons.mp hd with rfl | hd2
  · decide
  · rcases List.mem_append.mp hd2 with hd3 | hd3
    · rw [escChars] at hd3
      obtain ⟨c, hc, hdc⟩ := List.mem_flatMap.mp hd3
      exact escChar_le c (hs c hc) d hdc
    · simp only [List.mem_cons, List.not_mem_nil, or_false] at hd3
      subst hd3
      decide

theorem memberChars_le (k v : String) (hk : ∀ c ∈ k.data, c.toNat ≤ 255)
    (hv : ∀ c ∈ v.data, c.toNat ≤ 255) : ∀ d ∈ memberChars k v, d.toNat ≤ 255 := by
  intro d hd
  rw [memberChars] at hd
  rcases List.mem_cons.mp hd with rfl | hd2
  · decide
  rcases List.mem_cons.mp hd2 with rfl | hd3
  · decide
  rcases List.mem_append.mp hd3 with hd4 | hd4
  · exact quoteChars_le k hk d hd4
  rcases List.mem_cons.mp hd4 with rfl | hd5
  · decide
  rcases List.mem_cons.mp hd5 with rfl | hd6
  · decide
  exact quoteChars_le v hv d hd6

theorem membersTail_le (r : List (String × String))
    (hr : ∀ kv ∈ r, (∀ c ∈ kv.1.data, c.toNat ≤ 255) ∧ (∀ c ∈ kv.2.data, c.toNat ≤ 255)) :
    ∀ d ∈ membersTail r, d.toNat ≤ 255 := by
  induction r with
  | nil =>
    intro d hd
    rw [membersTail] at hd
    simp only [List.mem_cons, List.not_mem_nil, or_false] at hd
    rcases hd with rfl | rfl <;> decide
  | cons p r ih =>
    obtain ⟨k, v⟩ := p
    intro d hd
    rw [membersTail] at hd
    rcases List.mem_cons.mp hd with rfl | hd2
    · decide
    rcases List.mem_cons.mp hd2 with rfl | hd3
    · decide
    rcases List.mem_append.mp hd3 with hd4 | hd4
    · exact memberChars_le k v (hr (k, v) (by simp)).1 (hr (k, v) (by simp)).2 d hd4
    · exact ih (fun kv hkv => hr kv (List.mem_cons_of_mem _ hkv)) d hd4

theorem stringifyFlat_latin1 (r : List (String × String))
    (hr : ∀ kv ∈ r, (∀ c ∈ kv.1.data, c.toNat ≤ 255) ∧ (∀ c ∈ kv.2.data, c.toNat ≤ 255)) :
    ∀ c ∈ (stringifyFlat r).data, c.toNat ≤ 255 := by
  match r with
  | [] =>
    intro c hc
    simp only [stringifyFlat, List.mem_cons, List.not_mem_nil, or_false] at hc
    rcases hc with rfl | rfl <;> decide
  | (k, v) :: r' =>
    intro c hc
    rw [show (stringifyFlat ((k, v) :: r')).data =
      '\x7b' :: '\n' :: (memberChars k v ++ membersTail r') from rfl] at hc
    rcases List.mem_cons.mp hc with rfl | hc2
    · decide
    rcases List.mem_cons.mp hc2 with rfl | hc3
    · decide
    rcases List.mem_append.mp hc3 with hc4 | hc4
    · exact memberChars_le k v (hr (k, v) (by simp)).1 (hr (k, v) (by simp)).2 c hc4
    · exact membersTail_le r' (fun kv hkv => hr kv (List.mem_cons_of_mem _ hkv)) c hc4

theorem encB64_cons_ne_nil (b : Nat) (rest : List Nat) : encB64 (b :: rest) ≠ [] := by
  rcases rest with _ | ⟨b2, rest2⟩
  · rw [encB64]; simp
  · rcases rest2 with _ | ⟨b3, rest3⟩
    · rw [encB64]; simp
    · rw [encB64]; simp

theorem map_ofNat_toNat (l : List Char) : l.map (fun c => Char.ofNat c.toNat) = l := by
  induction l with
  | nil => rfl
  | cons c l ih => simp [ih, Char.ofNat_toNat]

/-- Claim C3 (amended): for every file store, context directory and flat
key-to-string record all of whose key and value characters are Latin-1
(code points at most 255), writing the record with `writeContextData` and
reading it back with `getContextData` on the same directory yields an equal
record, stored at the single fixed path `contextDir ++ "/context_data.json"`.
(The Latin-1 restriction is forced by `btoa`, see
`writeContextData_snowman_fails`.) -/
theorem writeContextData_readback (store : List (String × List Nat)) (contextDir : String)
    (r : List (String × String))
    (hr : ∀ kv ∈ r, (∀ c ∈ kv.1.data, c.toNat ≤ 255) ∧ (∀ c ∈ kv.2.data, c.toNat ≤ 255)) :
    ∃ bytes,
      writeContextData store contextDir r =
        some ((contextDir ++ "/context_data.json", bytes) :: store) ∧
      getContextData ((contextDir ++ "/context_data.json", bytes) :: store) contextDir =
        some r := by
  have hlat := stringifyFlat_latin1 r hr
  have hall : (stringifyFlat r).data.all (fun c => c.toNat ≤ 255) = true := by
    rw [List.all_eq_true]
    intro c hc
    simpa using hlat c hc
  have hbounds : ∀ b ∈ (stringifyFlat r).data.map Char.toNat, b < 256 := by
    intro b hb
    obtain ⟨c, hc, rfl⟩ := List.mem_map.mp hb
    have := hlat c hc
    omega
  have hdec := decB64_encB64 ((stringifyFlat r).data.map Char.toNat) hbounds
  have hne : (encB64 ((stringifyFlat r).data.map Char.toNat)).isEmpty = false := by
    match r with
    | [] => rfl
    | (k, v) :: r' =>
      rw [show (stringifyFlat ((k, v) :: r')).data =
        '\x7b' :: '\n' :: (memberChars k v ++ membersTail r') from rfl]
      rw [List.map_cons]
      rcases henc : encB64 ('\x7b'.toNat ::
          ('\n' :: (memberChars k v ++ membersTail r')).map Char.toNat) with _ | ⟨d, ds⟩
      · exact absurd henc (encB64_cons_ne_nil _ _)
      · rfl
  refine ⟨(stringifyFlat r).data.map Char.toNat, ?_, ?_⟩
  · rw [writeContextData, btoa, if_pos hall]
    show some (writeFileHandler store (contextDir ++ "/context_data.json")
      (String.mk (encB64 ((stringifyFlat r).data.map Char.toNat)))) = _
    rw [writeFileHandler]
    show some ((contextDir ++ "/context_data.json",
      (decB64 (encB64 ((stringifyFlat r).data.map Char.toNat))).getD []) :: store) = _
    rw [hdec]
    rfl
  · rw [getContextData, readFileHandler]
    rw [show (((contextDir ++ "/context_data.json",
        (stringifyFlat r).data.map Char.toNat) :: store).lookup
        (contextDir ++ "/context_data.json")) =
      some ((stringifyFlat r).data.map Char.toNat) from by simp [List.lookup]]
    show (if (encB64 ((stringifyFlat r).data.map Char.toNat)).isEmpty then none
      else match atob (String.mk (encB64 ((stringifyFlat r).data.map Char.toNat))) with
        | some decoded => jsonParseFlat decoded
        | none => none) = some r
    rw [hne]
    simp only [Bool.false_eq_true, if_false]
    rw [atob]
    show (match Option.map (fun bs => String.mk (bs.map Char.ofNat))
        (decB64 (encB64 ((stringifyFlat r).data.map Char.toNat))) with
      | some decoded => jsonParseFlat decoded
      | none => none) = some r
    rw [hdec]
    show jsonParseFlat (String.mk
      (((stringifyFlat r).data.map Char.toNat).map Char.ofNat)) = some r
    rw [show ((stringifyFlat r).data.map Char.toNat).map Char.ofNat =
      (stringifyFlat r).data.map (fun c => Char.ofNat c.toNat) from by
        rw [List.map_map]; rfl]
    rw [map_ofNat_toNat]
    exact jsonParseFlat_stringifyFlat r

/-- Witness for claim C3 at a concrete store and record. -/
theorem writeContextData_readback_witness :
    ∃ bytes,
      writeContextData [] "ctx" [("name", "Ada Lovelace"), ("email", "ada@lovelace.org")] =
        some (("ctx" ++ "/context_data.json", bytes) :: []) ∧
      getContextData (("ctx" ++ "/context_data.json", bytes) :: []) "ctx" =
        some [("name", "Ada Lovelace"), ("email", "ada@lovelace.org")] :=
  writeContextData_readback [] "ctx" [("name", "Ada Lovelace"), ("email", "ada@lovelace.org")]
    (by decide)

/-- Claim C3 (counterexample to the claim as stated): for a record whose
value contains a character above U+00FF, `JSON.stringify` leaves the
character literal and `btoa` throws `InvalidCharacterError`, so the write
itself fails — no store exists from which the record could be read back. -/
theorem writeContextData_snowman_fails :
    writeContextData [] "ctx" [("name", "☃")] = none := by decide

end EasyForm
